import Mathlib

/-!
Shallow embedding of the array-flavored bounded channel
(`src/flavors/array.rs`, a variant of Vyukov's bounded MPMC queue),
executed sequentially.  Machine words (`usize`) are modelled as `Nat`
together with a word width `w`; every wrapping operation reduces
modulo `2 ^ w`.  The blocking/parking slow path and the waker registry
are external collaborators; a blocking operation that would park with
no other thread around is modelled as divergence (`none`).
-/

namespace Crossbeam

/-- `usize::wrapping_add` on `w`-bit words. -/
def wadd (w a b : Nat) : Nat := (a + b) % 2 ^ w

/-- `usize::wrapping_mul` on `w`-bit words. -/
def wmul (w a b : Nat) : Nat := (a * b) % 2 ^ w

/-- Bitwise NOT (`!x`) on `w`-bit words: XOR with the all-ones word. -/
def wnot (w a : Nat) : Nat := (2 ^ w - 1) ^^^ a

/-- `TrySendError` from `err.rs`: failed `try_send` returns the message. -/
inductive TrySendError (α : Type) where
  | Full (msg : α)
  | Disconnected (msg : α)
deriving DecidableEq, Repr

/-- `SendError` from `err.rs`: a failed blocking `send` returns the message. -/
structure SendError (α : Type) where
  msg : α
deriving DecidableEq, Repr

/-- `TryRecvError` from `err.rs`. -/
inductive TryRecvError where
  | Empty
  | Disconnected
deriving DecidableEq, Repr

/-- `RecvError` from `err.rs` (a unit struct). -/
structure RecvError where
deriving DecidableEq, Repr

/-- Propositional equality on `Except` results is decidable; needed to
evaluate concrete scenario runs. -/
instance instDecidableEqExcept {ε α : Type} [DecidableEq ε] [DecidableEq α] :
    DecidableEq (Except ε α) := fun a b =>
  match a, b with
  | .error e, .error f =>
      if h : e = f then .isTrue (by rw [h]) else .isFalse (fun hc => h (by injection hc))
  | .error _, .ok _ => .isFalse (fun hc => Except.noConfusion hc)
  | .ok _, .error _ => .isFalse (fun hc => Except.noConfusion hc)
  | .ok x, .ok y =>
      if h : x = y then .isTrue (by rw [h]) else .isFalse (fun hc => h (by injection hc))

/-- The token for the array flavor: a slot pointer (modelled as the slot
index, `none` standing for the null pointer) and the stamp to store into
the slot after reading or writing. -/
structure ArrayToken where
  slot : Option Nat
  stamp : Nat
deriving DecidableEq, Repr

/-- Result of one pass of the `start_send`/`start_recv` loop body.
Sequentially the loaded head/tail cannot change between iterations, so a
pass that neither returns nor observes full/empty repeats forever:
`spins` marks that divergence. -/
inductive StartResult where
  | ready (tok : ArrayToken)
  | notReady
  | spins
deriving DecidableEq, Repr

/-- The bounded array channel: head and tail stamps, the slot stamps and
slot value cells of the `cap`-element buffer, and the closed flag.  The
value cell of a slot is uninitialized storage; it always holds bits,
modelled by `default` before the first write. -/
structure Channel (α : Type) where
  w : Nat
  cap : Nat
  one_lap : Nat
  head : Nat
  tail : Nat
  stamps : List Nat
  msgs : List α
  is_closed : Bool
deriving DecidableEq, Repr

/-- Fuel-indexed search for the next power of two: starting from `p`,
double until `n ≤ p`. -/
def nextPow2Go (n : Nat) : Nat → Nat → Nat
  | 0, p => p
  | fuel + 1, p => if n ≤ p then p else nextPow2Go n fuel (p * 2)

/-- The smallest power of two that is `≥ n`
(`usize::next_power_of_two`).  Fuel `n` always suffices because
`n < 2 ^ n`. -/
def nextPow2 (n : Nat) : Nat := nextPow2Go n n 1

/-- `Channel::with_capacity`.  The two `assert!`s are modelled by
returning `none` (panic) when the capacity is `0` or exceeds
`usize::max_value() / 4`.  Head starts at `{ lap: 1, index: 0 }`
(i.e. `one_lap`), tail at `{ lap: 0, index: 0 }`, and slot `i`'s stamp
at `{ lap: 0, index: i }`. -/
def with_capacity (α : Type) [Inhabited α] (w cap : Nat) : Option (Channel α) :=
  if cap = 0 then none
  else if (2 ^ w - 1) / 4 < cap then none
  else
    some
      { w := w
        cap := cap
        one_lap := nextPow2 cap
        head := nextPow2 cap
        tail := 0
        stamps := List.range cap
        msgs := List.replicate cap default
        is_closed := false }

/-- `Channel::start_send`: one pass of the reservation loop (the CAS
always succeeds sequentially). -/
def Channel.start_send (ch : Channel α) : StartResult × Channel α :=
  if ch.is_closed then
    (.ready ⟨none, 0⟩, ch)
  else
    let tail := ch.tail
    let index := tail &&& (ch.one_lap - 1)
    let lap := tail &&& wnot ch.w (ch.one_lap - 1)
    let stamp := ch.stamps.getD index 0
    if tail = stamp then
      let new_tail :=
        if index + 1 < ch.cap then
          tail + 1
        else
          wadd ch.w lap (wmul ch.w ch.one_lap 2)
      (.ready ⟨some index, wadd ch.w stamp ch.one_lap⟩, { ch with tail := new_tail })
    else if wadd ch.w stamp ch.one_lap = tail then
      if wadd ch.w ch.head ch.one_lap = tail then
        (.notReady, ch)
      else
        (.spins, ch)
    else
      (.spins, ch)

/-- `Channel::write`: null slot means the channel is closed and the
message is handed back; otherwise store the message and publish the
token's stamp.  (The `receivers.wake_one()` call touches only the
external waker collaborator.) -/
def Channel.write (ch : Channel α) (tok : ArrayToken) (msg : α) :
    Except α (Channel α) :=
  match tok.slot with
  | none => .error msg
  | some i =>
      .ok { ch with
              msgs := ch.msgs.set i msg
              stamps := ch.stamps.set i tok.stamp }

/-- `Channel::start_recv`: one pass of the reservation loop. -/
def Channel.start_recv (ch : Channel α) : StartResult × Channel α :=
  let head := ch.head
  let index := head &&& (ch.one_lap - 1)
  let lap := head &&& wnot ch.w (ch.one_lap - 1)
  let stamp := ch.stamps.getD index 0
  if head = stamp then
    let new_head :=
      if index + 1 < ch.cap then
        head + 1
      else
        wadd ch.w lap (wmul ch.w ch.one_lap 2)
    (.ready ⟨some index, wadd ch.w stamp ch.one_lap⟩, { ch with head := new_head })
  else if wadd ch.w stamp ch.one_lap = head then
    let tail := ch.tail
    if wadd ch.w tail ch.one_lap = head then
      if ch.is_closed then
        if ch.tail = tail then
          (.ready ⟨none, 0⟩, ch)
        else
          (.spins, ch)
      else
        (.notReady, ch)
    else
      (.spins, ch)
  else
    (.spins, ch)

/-- `Channel::read`: null slot means closed-and-empty; otherwise move
the value out (the bits stay behind) and publish the token's stamp. -/
def Channel.read [Inhabited α] (ch : Channel α) (tok : ArrayToken) :
    Except Unit (α × Channel α) :=
  match tok.slot with
  | none => .error ()
  | some i =>
      .ok (ch.msgs.getD i default, { ch with stamps := ch.stamps.set i tok.stamp })

/-- `Channel::try_send`.  `none` models divergence (the reservation loop
spinning forever), which never happens from a reachable state. -/
def Channel.try_send (ch : Channel α) (msg : α) :
    Option (Except (TrySendError α) Unit × Channel α) :=
  match ch.start_send with
  | (.ready tok, ch1) =>
      match ch1.write tok msg with
      | .error m => some (.error (.Disconnected m), ch1)
      | .ok ch2 => some (.ok (), ch2)
  | (.notReady, ch1) => some (.error (.Full msg), ch1)
  | (.spins, _) => none

/-- `Channel::send` (blocking), executed sequentially: if the channel is
full the thread would park with nobody left to wake it, modelled as
divergence (`none`). -/
def Channel.send (ch : Channel α) (msg : α) :
    Option (Except (SendError α) Unit × Channel α) :=
  match ch.start_send with
  | (.ready tok, ch1) =>
      match ch1.write tok msg with
      | .error m => some (.error ⟨m⟩, ch1)
      | .ok ch2 => some (.ok (), ch2)
  | (.notReady, _) => none
  | (.spins, _) => none

/-- `Channel::try_recv`. -/
def Channel.try_recv [Inhabited α] (ch : Channel α) :
    Option (Except TryRecvError α × Channel α) :=
  match ch.start_recv with
  | (.ready tok, ch1) =>
      match ch1.read tok with
      | .error _ => some (.error .Disconnected, ch1)
      | .ok (m, ch2) => some (.ok m, ch2)
  | (.notReady, ch1) => some (.error .Empty, ch1)
  | (.spins, _) => none

/-- `Channel::recv` (blocking), executed sequentially: parking on an
empty open channel diverges. -/
def Channel.recv [Inhabited α] (ch : Channel α) :
    Option (Except RecvError α × Channel α) :=
  match ch.start_recv with
  | (.ready tok, ch1) =>
      match ch1.read tok with
      | .error _ => some (.error ⟨⟩, ch1)
      | .ok (m, ch2) => some (.ok m, ch2)
  | (.notReady, _) => none
  | (.spins, _) => none

/-- `Channel::len`: sequentially the re-read of `tail` always matches,
so the loop exits on its first iteration. -/
def Channel.len (ch : Channel α) : Nat :=
  let tail := ch.tail
  let head := ch.head
  let hix := head &&& (ch.one_lap - 1)
  let tix := tail &&& (ch.one_lap - 1)
  if hix < tix then tix - hix
  else if tix < hix then ch.cap - hix + tix
  else if wadd ch.w tail ch.one_lap = head then 0
  else ch.cap

/-- `Channel::capacity`: always `Some(cap)` for this flavor. -/
def Channel.capacity (ch : Channel α) : Option Nat :=
  some ch.cap

/-- `Channel::close`: sets the closed flag (waking the registries only
touches the external collaborators). -/
def Channel.close (ch : Channel α) : Channel α :=
  { ch with is_closed := true }

/-- `Channel::is_empty`: is the tail lagging one lap behind the head? -/
def Channel.is_empty (ch : Channel α) : Bool :=
  decide (wadd ch.w ch.tail ch.one_lap = ch.head)

/-- `Channel::is_full`: is the head lagging one lap behind the tail? -/
def Channel.is_full (ch : Channel α) : Bool :=
  decide (wadd ch.w ch.head ch.one_lap = ch.tail)

/-- `<Receiver as SelectHandle>::state`: the current tail stamp. -/
def Receiver.state (ch : Channel α) : Nat :=
  ch.tail

/-- `<Sender as SelectHandle>::state`: the current head stamp. -/
def Sender.state (ch : Channel α) : Nat :=
  ch.head


/-! ### List access helpers -/

theorem getD_set_self {β : Type} (l : List β) (i : Nat) (a d : β) (h : i < l.length) :
    (l.set i a).getD i d = a := by
  simp [List.getD_eq_getElem?_getD, List.getElem?_set_self h]

theorem getD_set_ne {β : Type} (l : List β) {i j : Nat} (a d : β) (h : i ≠ j) :
    (l.set i a).getD j d = l.getD j d := by
  simp [List.getD_eq_getElem?_getD, List.getElem?_set_ne h]

theorem getD_append_lt {β : Type} (l l' : List β) (j : Nat) (d : β) (h : j < l.length) :
    (l ++ l').getD j d = l.getD j d := by
  induction l generalizing j with
  | nil => simp at h
  | cons x xs ih =>
      cases j with
      | zero => simp
      | succ j => simpa using ih j (by simpa using h)

theorem getD_append_len {β : Type} (l : List β) (m d : β) :
    (l ++ [m]).getD l.length d = m := by
  induction l with
  | nil => simp
  | cons x xs ih => simp [ih]

theorem getD_tail {β : Type} (l : List β) (j : Nat) (d : β) :
    l.tail.getD j d = l.getD (j + 1) d := by
  cases l <;> simp

theorem getD_range (i n : Nat) (h : i < n) : (List.range n).getD i 0 = i := by
  simp [List.getD_eq_getElem?_getD, List.getElem?_range h]

theorem getD_replicate {β : Type} (n i : Nat) (a d : β) (h : i < n) :
    (List.replicate n a).getD i d = a := by
  simp [List.getD_eq_getElem?_getD, List.getElem?_replicate, h]

/-! ### Bit-mask arithmetic -/

theorem and_mask (l x : Nat) : x &&& (2 ^ l - 1) = x % 2 ^ l :=
  Nat.and_pow_two_sub_one_eq_mod x l

theorem and_not_mask {w l : Nat} (hl : l ≤ w) {x : Nat} (hx : x < 2 ^ w) :
    x &&& wnot w (2 ^ l - 1) = x - x % 2 ^ l := by
  have hrw : x - x % 2 ^ l = (x >>> l) <<< l := by
    rw [Nat.shiftLeft_eq, Nat.shiftRight_eq_div_pow]
    exact Nat.sub_eq_of_eq_add (by rw [Nat.mul_comm] at *; exact (Nat.div_add_mod x (2 ^ l)).symm)
  rw [hrw, wnot]
  apply Nat.eq_of_testBit_eq
  intro i
  simp only [Nat.testBit_and, Nat.testBit_xor, Nat.testBit_two_pow_sub_one,
    Nat.testBit_shiftLeft, Nat.testBit_shiftRight]
  rcases Nat.lt_or_ge i l with h1 | h1
  · have h2 : i < w := lt_of_lt_of_le h1 hl
    simp [h1, h2, Nat.not_le.mpr h1]
  · rcases Nat.lt_or_ge i w with h2 | h2
    · have h3 : l + (i - l) = i := by omega
      simp [h2, Nat.not_lt.mpr h1, h3, h1]
    · have hbit : x.testBit i = false :=
        Nat.testBit_lt_two_pow (lt_of_lt_of_le hx (Nat.pow_le_pow_right (by norm_num) h2))
      have h3 : l + (i - l) = i := by omega
      simp [h3, hbit, Nat.not_lt.mpr h1, Nat.not_lt.mpr (le_trans hl h2), h1]

/-! ### Modular arithmetic helpers -/

theorem add_mod_ne {M d x : Nat} (hd : 0 < d) (hdM : d < M) : (x + d) % M ≠ x % M := by
  intro hEq
  have h1 : x + d ≡ x + 0 [MOD M] := by simpa using (hEq : x + d ≡ x [MOD M])
  have h2 : d ≡ 0 [MOD M] := Nat.ModEq.add_left_cancel' x h1
  have h3 : M ∣ d := (Nat.modEq_zero_iff_dvd).mp h2
  exact absurd (Nat.le_of_dvd hd h3) (by omega)

theorem add_mod_mod_eq (a b n : Nat) : (a + b % n) % n = (a + b) % n := by
  rw [Nat.add_mod a (b % n), Nat.mod_mod_of_dvd b (dvd_refl n), ← Nat.add_mod]

theorem mul_add_mod_eq {L M : Nat} (hL : 0 < L) (hdvd : L ∣ M) (hM : 0 < M)
    (a r : Nat) (hr : r < L) :
    (a * L + r) % M = a % (M / L) * L + r := by
  obtain ⟨k, hk⟩ := hdvd
  subst hk
  have hk0 : 0 < k := Nat.pos_of_ne_zero (by rintro rfl; simp at hM)
  rw [Nat.mul_div_cancel_left k hL, Nat.mul_comm L k]
  have hak : a % k < k := Nat.mod_lt _ hk0
  have hlt : a % k * L + r < k * L := by
    calc a % k * L + r < a % k * L + L := by omega
    _ = (a % k + 1) * L := by ring
    _ ≤ k * L := Nat.mul_le_mul_right L (by omega)
  rw [Nat.add_mod, Nat.mul_mod_mul_right, Nat.mod_eq_of_lt (lt_of_lt_of_le hr (by nlinarith)),
    Nat.mod_eq_of_lt hlt]


/-! ### Stamp encodings of absolute positions

An absolute position `p` (the total number of sends, resp. receives,
ever committed) sits at index `p % cap` of the ring and has made
`p / cap` complete laps.  The tail and an empty slot carry the even-lap
stamp of their position; the head and a full slot carry the odd-lap
stamp.  All stored stamps are the residues of these values mod `2^w`. -/

/-- Even-lap stamp of position `p`, before reduction mod the word. -/
def preE (cap L p : Nat) : Nat := 2 * (p / cap) * L + p % cap

/-- Odd-lap stamp of position `p`, before reduction mod the word. -/
def preF (cap L p : Nat) : Nat := (2 * (p / cap) + 1) * L + p % cap

/-- Even-lap stamp of position `p` as a `w`-bit word (`M = 2^w`). -/
def stampE (cap L M p : Nat) : Nat := preE cap L p % M

/-- Odd-lap stamp of position `p` as a `w`-bit word. -/
def stampF (cap L M p : Nat) : Nat := preF cap L p % M

theorem preF_eq (cap L p : Nat) : preF cap L p = preE cap L p + L := by
  unfold preE preF; ring

/-- The unique position in `[h, h + cap)` congruent to `i` mod `cap`. -/
def slotPos (cap h i : Nat) : Nat := h + (i + cap - h % cap) % cap

/-- Canonical stamp of slot `i` when the queue spans positions
`[h, t)`: the odd stamp of its position if the slot holds a message,
the even stamp otherwise. -/
def slotStamp (cap L M h t i : Nat) : Nat :=
  if slotPos cap h i < t then stampF cap L M (slotPos cap h i)
  else stampE cap L M (slotPos cap h i)

theorem slotPos_lb (cap h i : Nat) : h ≤ slotPos cap h i :=
  Nat.le_add_right h _

theorem slotPos_ub {cap : Nat} (hcap : 0 < cap) (h i : Nat) :
    slotPos cap h i < h + cap :=
  Nat.add_lt_add_left (Nat.mod_lt _ hcap) h

theorem slotPos_mod {cap : Nat} (hcap : 0 < cap) (h : Nat) {i : Nat} (hi : i < cap) :
    slotPos cap h i % cap = i := by
  unfold slotPos
  have hr : h % cap < cap := Nat.mod_lt _ hcap
  rw [Nat.add_mod, Nat.mod_mod_of_dvd _ (dvd_refl cap), add_mod_mod_eq]
  have h1 : h % cap + (i + cap - h % cap) = i + cap := by omega
  rw [h1, Nat.add_mod_right, Nat.mod_eq_of_lt hi]

theorem slotPos_eq {cap : Nat} (hcap : 0 < cap) {h p : Nat}
    (h1 : h ≤ p) (h2 : p < h + cap) : slotPos cap h (p % cap) = p := by
  unfold slotPos
  obtain ⟨d, rfl⟩ : ∃ d, p = h + d := ⟨p - h, by omega⟩
  have hd : d < cap := by omega
  have hr : h % cap < cap := Nat.mod_lt _ hcap
  have hm : (h + d) % cap = (h % cap + d) % cap := by
    conv_lhs => rw [Nat.add_mod]
    rw [add_mod_mod_eq]
  rw [hm]
  rcases Nat.lt_or_ge (h % cap + d) cap with hlt | hge
  · rw [Nat.mod_eq_of_lt hlt]
    have h3 : h % cap + d + cap - h % cap = d + cap := by omega
    rw [h3, Nat.add_mod_right, Nat.mod_eq_of_lt hd]
  · have hsub : (h % cap + d) % cap = h % cap + d - cap := by
      rw [Nat.mod_eq_sub_mod hge, Nat.mod_eq_of_lt (by omega)]
    rw [hsub]
    have h3 : h % cap + d - cap + cap - h % cap = d := by omega
    rw [h3, Nat.mod_eq_of_lt hd]

theorem slotPos_shift {cap : Nat} (hcap : 0 < cap) {h i : Nat}
    (hi : i < cap) (hne : i ≠ h % cap) :
    slotPos cap (h + 1) i = slotPos cap h i := by
  have h1 := slotPos_lb cap h i
  have h2 := slotPos_ub hcap h i
  have h3 := slotPos_mod hcap h hi
  have hne' : slotPos cap h i ≠ h := fun he => hne (by rw [← h3, he])
  have := slotPos_eq hcap (h := h + 1) (p := slotPos cap h i) (by omega) (by omega)
  rw [h3] at this
  exact this

theorem slotPos_head_shift {cap : Nat} (hcap : 0 < cap) (h : Nat) :
    slotPos cap (h + 1) (h % cap) = h + cap := by
  have := slotPos_eq hcap (h := h + 1) (p := h + cap) (by omega) (by omega)
  rw [Nat.add_mod_right] at this
  exact this

/-! ### Division/modulus stepping -/

theorem div_mod_succ {cap p : Nat} (h : p % cap + 1 < cap) :
    (p + 1) / cap = p / cap ∧ (p + 1) % cap = p % cap + 1 := by
  have hcap : 0 < cap := by omega
  have hp : p % cap + cap * (p / cap) = p := Nat.mod_add_div p cap
  have h1 : p + 1 = p % cap + 1 + cap * (p / cap) := by
    conv_lhs => rw [← hp]
    ring
  constructor
  · rw [h1, Nat.add_mul_div_left _ _ hcap, Nat.div_eq_of_lt h]
    exact Nat.zero_add _
  · rw [h1, Nat.add_mul_mod_self_left, Nat.mod_eq_of_lt h]

theorem div_mod_wrap {cap p : Nat} (hcap : 0 < cap) (h : p % cap + 1 = cap) :
    (p + 1) / cap = p / cap + 1 ∧ (p + 1) % cap = 0 := by
  have hp : p % cap + cap * (p / cap) = p := Nat.mod_add_div p cap
  have h1 : p + 1 = cap + cap * (p / cap) := by
    conv_lhs => rw [← hp]
    omega
  constructor
  · rw [h1, Nat.add_mul_div_left _ _ hcap, Nat.div_self hcap]
    omega
  · rw [h1, Nat.add_mul_mod_self_left, Nat.mod_self]

theorem div_mod_add_cap {cap : Nat} (hcap : 0 < cap) (p : Nat) :
    (p + cap) / cap = p / cap + 1 ∧ (p + cap) % cap = p % cap :=
  ⟨Nat.add_div_right p hcap, Nat.add_mod_right p cap⟩

/-! ### The reachable-state invariant

`Inv ch h t q` says the sequentially-reachable channel `ch` has
committed `h` receives and `t` sends in total, and currently queues the
message list `q` (oldest first).  All stored words are the canonical
stamps of these positions. -/

structure Inv [Inhabited α] (ch : Channel α) (h t : Nat) (q : List α) : Prop where
  cap_pos : 0 < ch.cap
  cap_le : ch.cap ≤ ch.one_lap
  pow : ∃ l, l ≤ ch.w ∧ ch.one_lap = 2 ^ l
  four : 4 * ch.one_lap ≤ 2 ^ ch.w
  hle : h ≤ t
  tle : t ≤ h + ch.cap
  head_eq : ch.head = stampF ch.cap ch.one_lap (2 ^ ch.w) h
  tail_eq : ch.tail = stampE ch.cap ch.one_lap (2 ^ ch.w) t
  stamps_len : ch.stamps.length = ch.cap
  msgs_len : ch.msgs.length = ch.cap
  stamp_eq : ∀ i, i < ch.cap →
    ch.stamps.getD i 0 = slotStamp ch.cap ch.one_lap (2 ^ ch.w) h t i
  q_len : q.length = t - h
  msg_eq : ∀ j, j < t - h →
    ch.msgs.getD ((h + j) % ch.cap) default = q.getD j default


/-! ### Geometry of a well-formed channel

`Geom w cap L` bundles the arithmetic facts relating the word width,
the capacity and `one_lap` that `with_capacity` establishes. -/

theorem mul_add_mod_self (a b r : Nat) : (a * b + r) % b = r % b := by
  rw [Nat.mul_comm, Nat.mul_add_mod]

structure Geom (w cap L : Nat) : Prop where
  cap_pos : 0 < cap
  cap_le : cap ≤ L
  pow : ∃ l, l ≤ w ∧ L = 2 ^ l
  four : 4 * L ≤ 2 ^ w

namespace Geom

variable {w cap L : Nat}

theorem Lpos (g : Geom w cap L) : 0 < L := by
  obtain ⟨l, -, rfl⟩ := g.pow
  exact pow_pos (by norm_num) l

theorem Mpos : 0 < 2 ^ w :=
  pow_pos (by norm_num) w

theorem dvd (g : Geom w cap L) : L ∣ 2 ^ w := by
  obtain ⟨l, hlw, rfl⟩ := g.pow
  exact pow_dvd_pow 2 hlw

theorem LltM (g : Geom w cap L) : L < 2 ^ w := by
  have := g.four
  have := g.Lpos
  omega

theorem twoLltM (g : Geom w cap L) : 2 * L < 2 ^ w := by
  have := g.four
  have := g.Lpos
  omega

theorem M_eq (g : Geom w cap L) : 2 ^ w = 2 ^ w / L * L :=
  (Nat.div_mul_cancel g.dvd).symm

theorem km_pos (g : Geom w cap L) : 0 < 2 ^ w / L :=
  Nat.div_pos (le_of_lt g.LltM) g.Lpos

theorem and_mask_eq (g : Geom w cap L) (x : Nat) : x &&& (L - 1) = x % L := by
  obtain ⟨l, -, rfl⟩ := g.pow
  exact and_mask l x

theorem and_not_mask_eq (g : Geom w cap L) {x : Nat} (hx : x < 2 ^ w) :
    x &&& wnot w (L - 1) = x - x % L := by
  obtain ⟨l, hlw, rfl⟩ := g.pow
  exact and_not_mask hlw hx

theorem stampE_canon (g : Geom w cap L) (p : Nat) :
    stampE cap L (2 ^ w) p = 2 * (p / cap) % (2 ^ w / L) * L + p % cap :=
  mul_add_mod_eq g.Lpos g.dvd Mpos _ _ (lt_of_lt_of_le (Nat.mod_lt _ g.cap_pos) g.cap_le)

theorem stampF_canon (g : Geom w cap L) (p : Nat) :
    stampF cap L (2 ^ w) p = (2 * (p / cap) + 1) % (2 ^ w / L) * L + p % cap :=
  mul_add_mod_eq g.Lpos g.dvd Mpos _ _ (lt_of_lt_of_le (Nat.mod_lt _ g.cap_pos) g.cap_le)

theorem stampE_mod_L (g : Geom w cap L) (p : Nat) :
    stampE cap L (2 ^ w) p % L = p % cap := by
  rw [g.stampE_canon p, mul_add_mod_self,
    Nat.mod_eq_of_lt (lt_of_lt_of_le (Nat.mod_lt _ g.cap_pos) g.cap_le)]

theorem stampF_mod_L (g : Geom w cap L) (p : Nat) :
    stampF cap L (2 ^ w) p % L = p % cap := by
  rw [g.stampF_canon p, mul_add_mod_self,
    Nat.mod_eq_of_lt (lt_of_lt_of_le (Nat.mod_lt _ g.cap_pos) g.cap_le)]

theorem stampE_lt (p : Nat) : stampE cap L (2 ^ w) p < 2 ^ w :=
  Nat.mod_lt _ Mpos

theorem stampF_lt (p : Nat) : stampF cap L (2 ^ w) p < 2 ^ w :=
  Nat.mod_lt _ Mpos

end Geom

/-! ### Stamp-stepping identities -/

theorem stampE_add_L (cap L M p : Nat) :
    (stampE cap L M p + L) % M = stampF cap L M p := by
  unfold stampE stampF
  rw [Nat.mod_add_mod, preF_eq]

theorem stampF_add_L {cap : Nat} (L M : Nat) (hcap : 0 < cap) (p : Nat) :
    (stampF cap L M p + L) % M = stampE cap L M (p + cap) := by
  unfold stampE stampF
  rw [Nat.mod_add_mod]
  congr 1
  unfold preE preF
  rw [(div_mod_add_cap hcap p).1, (div_mod_add_cap hcap p).2]
  ring

theorem preE_add_cap {cap : Nat} (L : Nat) (hcap : 0 < cap) (p : Nat) :
    preE cap L (p + cap) = preE cap L p + 2 * L := by
  unfold preE
  rw [(div_mod_add_cap hcap p).1, (div_mod_add_cap hcap p).2]
  ring

namespace Geom

variable {w cap L : Nat}

theorem stampF_ne_stampE (g : Geom w cap L) (p : Nat) :
    stampF cap L (2 ^ w) p ≠ stampE cap L (2 ^ w) p := by
  unfold stampE stampF
  rw [preF_eq]
  exact add_mod_ne g.Lpos g.LltM

theorem stampE_addcap_ne_stampF (g : Geom w cap L) (p : Nat) :
    stampE cap L (2 ^ w) (p + cap) ≠ stampF cap L (2 ^ w) p := by
  rw [← stampF_add_L L (2 ^ w) g.cap_pos p]
  unfold stampF
  rw [Nat.mod_add_mod]
  exact add_mod_ne g.Lpos g.LltM

theorem emptycheck_ne (g : Geom w cap L) (p : Nat) :
    (stampE cap L (2 ^ w) (p + cap) + L) % 2 ^ w ≠ stampF cap L (2 ^ w) p := by
  rw [stampE_add_L]
  unfold stampF
  rw [preF_eq cap L (p + cap), preF_eq cap L p, preE_add_cap L g.cap_pos p]
  have h1 : preE cap L p + 2 * L + L = preE cap L p + L + 2 * L := by ring
  rw [h1]
  exact add_mod_ne (by have := g.Lpos; omega) g.twoLltM

theorem fullcheck_ne (g : Geom w cap L) (p : Nat) :
    (stampF cap L (2 ^ w) p + L) % 2 ^ w ≠ stampE cap L (2 ^ w) p := by
  rw [stampF_add_L L (2 ^ w) g.cap_pos p]
  unfold stampE
  rw [preE_add_cap L g.cap_pos p]
  exact add_mod_ne (by have := g.Lpos; omega) g.twoLltM

theorem wrap_core (g : Geom w cap L) (a : Nat) :
    wadd w (a % (2 ^ w / L) * L) (wmul w L 2) = (a + 2) % (2 ^ w / L) * L := by
  set km := 2 ^ w / L with hkm_def
  have hM : (2:Nat) ^ w = km * L := by rw [hkm_def]; exact g.M_eq
  unfold wadd wmul
  rw [Nat.mod_eq_of_lt (show L * 2 < 2 ^ w by have := g.twoLltM; omega)]
  have h1 : a % km * L + L * 2 = (a % km + 2) * L := by ring
  rw [h1, hM, Nat.mul_mod_mul_right, Nat.mod_add_mod]

theorem new_tail_succ (g : Geom w cap L) {p : Nat} (hsucc : p % cap + 1 < cap) :
    stampE cap L (2 ^ w) p + 1 = stampE cap L (2 ^ w) (p + 1) := by
  rw [g.stampE_canon p, g.stampE_canon (p + 1),
    (div_mod_succ hsucc).1, (div_mod_succ hsucc).2]
  ring

theorem new_tail_wrap (g : Geom w cap L) {p : Nat} (hwrap : p % cap + 1 = cap) :
    wadd w (stampE cap L (2 ^ w) p - stampE cap L (2 ^ w) p % L) (wmul w L 2) =
      stampE cap L (2 ^ w) (p + 1) := by
  rw [g.stampE_mod_L p, g.stampE_canon p, Nat.add_sub_cancel, g.wrap_core,
    g.stampE_canon (p + 1), (div_mod_wrap g.cap_pos hwrap).1,
    (div_mod_wrap g.cap_pos hwrap).2]
  have h1 : 2 * (p / cap) + 2 = 2 * (p / cap + 1) := by ring
  rw [h1]
  exact (Nat.add_zero _).symm

theorem new_head_succ (g : Geom w cap L) {p : Nat} (hsucc : p % cap + 1 < cap) :
    stampF cap L (2 ^ w) p + 1 = stampF cap L (2 ^ w) (p + 1) := by
  rw [g.stampF_canon p, g.stampF_canon (p + 1),
    (div_mod_succ hsucc).1, (div_mod_succ hsucc).2]
  ring

theorem new_head_wrap (g : Geom w cap L) {p : Nat} (hwrap : p % cap + 1 = cap) :
    wadd w (stampF cap L (2 ^ w) p - stampF cap L (2 ^ w) p % L) (wmul w L 2) =
      stampF cap L (2 ^ w) (p + 1) := by
  rw [g.stampF_mod_L p, g.stampF_canon p, Nat.add_sub_cancel, g.wrap_core,
    g.stampF_canon (p + 1), (div_mod_wrap g.cap_pos hwrap).1,
    (div_mod_wrap g.cap_pos hwrap).2]
  have h1 : 2 * (p / cap) + 1 + 2 = 2 * (p / cap + 1) + 1 := by ring
  rw [h1]
  exact (Nat.add_zero _).symm

end Geom


theorem Inv.geom [Inhabited α] {ch : Channel α} {h t : Nat} {q : List α}
    (inv : Inv ch h t q) : Geom ch.w ch.cap ch.one_lap :=
  ⟨inv.cap_pos, inv.cap_le, inv.pow, inv.four⟩

/-! ### Evaluating one pass of the reservation loops -/

theorem start_send_match {α : Type} (ch : Channel α) (hc : ch.is_closed = false)
    (hmatch : ch.stamps.getD (ch.tail &&& (ch.one_lap - 1)) 0 = ch.tail) :
    ch.start_send =
      (.ready ⟨some (ch.tail &&& (ch.one_lap - 1)), wadd ch.w ch.tail ch.one_lap⟩,
       { ch with tail :=
          if (ch.tail &&& (ch.one_lap - 1)) + 1 < ch.cap then ch.tail + 1
          else wadd ch.w (ch.tail &&& wnot ch.w (ch.one_lap - 1)) (wmul ch.w ch.one_lap 2) }) := by
  simp only [Channel.start_send, hc, Bool.false_eq_true, if_false, hmatch,
    eq_self_iff_true, if_true]

theorem start_send_notready {α : Type} (ch : Channel α) (hc : ch.is_closed = false)
    (hne : ch.tail ≠ ch.stamps.getD (ch.tail &&& (ch.one_lap - 1)) 0)
    (hlag : wadd ch.w (ch.stamps.getD (ch.tail &&& (ch.one_lap - 1)) 0) ch.one_lap = ch.tail)
    (hfull : wadd ch.w ch.head ch.one_lap = ch.tail) :
    ch.start_send = (.notReady, ch) := by
  simp only [Channel.start_send, hc, Bool.false_eq_true, if_false, if_neg hne,
    if_pos hlag, if_pos hfull]

theorem start_recv_match {α : Type} (ch : Channel α)
    (hmatch : ch.stamps.getD (ch.head &&& (ch.one_lap - 1)) 0 = ch.head) :
    ch.start_recv =
      (.ready ⟨some (ch.head &&& (ch.one_lap - 1)), wadd ch.w ch.head ch.one_lap⟩,
       { ch with head :=
          if (ch.head &&& (ch.one_lap - 1)) + 1 < ch.cap then ch.head + 1
          else wadd ch.w (ch.head &&& wnot ch.w (ch.one_lap - 1)) (wmul ch.w ch.one_lap 2) }) := by
  simp only [Channel.start_recv, hmatch, eq_self_iff_true, if_true]

theorem start_recv_notready {α : Type} (ch : Channel α) (hc : ch.is_closed = false)
    (hne : ch.head ≠ ch.stamps.getD (ch.head &&& (ch.one_lap - 1)) 0)
    (hlag : wadd ch.w (ch.stamps.getD (ch.head &&& (ch.one_lap - 1)) 0) ch.one_lap = ch.head)
    (hempty : wadd ch.w ch.tail ch.one_lap = ch.head) :
    ch.start_recv = (.notReady, ch) := by
  simp only [Channel.start_recv, if_neg hne, if_pos hlag, if_pos hempty, hc,
    Bool.false_eq_true, if_false]

theorem start_recv_closed_empty {α : Type} (ch : Channel α) (hc : ch.is_closed = true)
    (hne : ch.head ≠ ch.stamps.getD (ch.head &&& (ch.one_lap - 1)) 0)
    (hlag : wadd ch.w (ch.stamps.getD (ch.head &&& (ch.one_lap - 1)) 0) ch.one_lap = ch.head)
    (hempty : wadd ch.w ch.tail ch.one_lap = ch.head) :
    ch.start_recv = (.ready ⟨none, 0⟩, ch) := by
  simp only [Channel.start_recv, if_neg hne, if_pos hlag, if_pos hempty, hc,
    eq_self_iff_true, if_true]

/-! ### Reservation behaviour on reachable states -/

theorem start_send_ok [Inhabited α] {ch : Channel α} {h t : Nat} {q : List α}
    (inv : Inv ch h t q) (hc : ch.is_closed = false) (hnf : t < h + ch.cap) :
    ch.start_send =
      (.ready ⟨some (t % ch.cap), stampF ch.cap ch.one_lap (2 ^ ch.w) t⟩,
       { ch with tail := stampE ch.cap ch.one_lap (2 ^ ch.w) (t + 1) }) := by
  have g := inv.geom
  have hidx : ch.tail &&& (ch.one_lap - 1) = t % ch.cap := by
    rw [inv.tail_eq, g.and_mask_eq, g.stampE_mod_L]
  have htixcap : t % ch.cap < ch.cap := Nat.mod_lt _ inv.cap_pos
  have hpos : slotPos ch.cap h (t % ch.cap) = t := slotPos_eq inv.cap_pos inv.hle hnf
  have hstamp : ch.stamps.getD (ch.tail &&& (ch.one_lap - 1)) 0 = ch.tail := by
    rw [hidx, inv.stamp_eq _ htixcap]
    unfold slotStamp
    rw [hpos, if_neg (lt_irrefl t), inv.tail_eq]
  have htok : wadd ch.w ch.tail ch.one_lap = stampF ch.cap ch.one_lap (2 ^ ch.w) t := by
    rw [inv.tail_eq]
    exact stampE_add_L _ _ _ _
  have hnew : (if (ch.tail &&& (ch.one_lap - 1)) + 1 < ch.cap then ch.tail + 1
      else wadd ch.w (ch.tail &&& wnot ch.w (ch.one_lap - 1)) (wmul ch.w ch.one_lap 2))
      = stampE ch.cap ch.one_lap (2 ^ ch.w) (t + 1) := by
    rw [hidx]
    rcases Nat.lt_or_ge (t % ch.cap + 1) ch.cap with hlt | hge
    · rw [if_pos hlt, inv.tail_eq, g.new_tail_succ hlt]
    · have heq : t % ch.cap + 1 = ch.cap := by omega
      rw [if_neg (by omega), inv.tail_eq, g.and_not_mask_eq (Geom.stampE_lt t)]
      exact g.new_tail_wrap heq
  rw [start_send_match ch hc hstamp, hnew, htok, hidx]

theorem start_send_full [Inhabited α] {ch : Channel α} {h t : Nat} {q : List α}
    (inv : Inv ch h t q) (hc : ch.is_closed = false) (hf : t = h + ch.cap) :
    ch.start_send = (.notReady, ch) := by
  have g := inv.geom
  subst hf
  have hidx : ch.tail &&& (ch.one_lap - 1) = h % ch.cap := by
    rw [inv.tail_eq, g.and_mask_eq, g.stampE_mod_L, Nat.add_mod_right]
  have hhixcap : h % ch.cap < ch.cap := Nat.mod_lt _ inv.cap_pos
  have hpos : slotPos ch.cap h (h % ch.cap) = h :=
    slotPos_eq inv.cap_pos (le_refl h) (by have := inv.cap_pos; omega)
  have hstamp : ch.stamps.getD (ch.tail &&& (ch.one_lap - 1)) 0
      = stampF ch.cap ch.one_lap (2 ^ ch.w) h := by
    rw [hidx, inv.stamp_eq _ hhixcap]
    unfold slotStamp
    rw [hpos, if_pos (by have := inv.cap_pos; omega)]
  refine start_send_notready ch hc ?_ ?_ ?_
  · rw [hstamp, inv.tail_eq]
    exact g.stampE_addcap_ne_stampF h
  · rw [hstamp, inv.tail_eq]
    exact stampF_add_L _ _ inv.cap_pos h
  · rw [inv.head_eq, inv.tail_eq]
    exact stampF_add_L _ _ inv.cap_pos h

theorem start_recv_ok [Inhabited α] {ch : Channel α} {h t : Nat} {q : List α}
    (inv : Inv ch h t q) (hne : h < t) :
    ch.start_recv =
      (.ready ⟨some (h % ch.cap), stampE ch.cap ch.one_lap (2 ^ ch.w) (h + ch.cap)⟩,
       { ch with head := stampF ch.cap ch.one_lap (2 ^ ch.w) (h + 1) }) := by
  have g := inv.geom
  have hidx : ch.head &&& (ch.one_lap - 1) = h % ch.cap := by
    rw [inv.head_eq, g.and_mask_eq, g.stampF_mod_L]
  have hhixcap : h % ch.cap < ch.cap := Nat.mod_lt _ inv.cap_pos
  have hpos : slotPos ch.cap h (h % ch.cap) = h :=
    slotPos_eq inv.cap_pos (le_refl h) (by have := inv.cap_pos; omega)
  have hstamp : ch.stamps.getD (ch.head &&& (ch.one_lap - 1)) 0 = ch.head := by
    rw [hidx, inv.stamp_eq _ hhixcap]
    unfold slotStamp
    rw [hpos, if_pos hne, inv.head_eq]
  have htok : wadd ch.w ch.head ch.one_lap
      = stampE ch.cap ch.one_lap (2 ^ ch.w) (h + ch.cap) := by
    rw [inv.head_eq]
    exact stampF_add_L _ _ inv.cap_pos h
  have hnew : (if (ch.head &&& (ch.one_lap - 1)) + 1 < ch.cap then ch.head + 1
      else wadd ch.w (ch.head &&& wnot ch.w (ch.one_lap - 1)) (wmul ch.w ch.one_lap 2))
      = stampF ch.cap ch.one_lap (2 ^ ch.w) (h + 1) := by
    rw [hidx]
    rcases Nat.lt_or_ge (h % ch.cap + 1) ch.cap with hlt | hge
    · rw [if_pos hlt, inv.head_eq, g.new_head_succ hlt]
    · have heq : h % ch.cap + 1 = ch.cap := by omega
      rw [if_neg (by omega), inv.head_eq, g.and_not_mask_eq (Geom.stampF_lt h)]
      exact g.new_head_wrap heq
  rw [start_recv_match ch hstamp, hnew, htok, hidx]

theorem start_recv_empty_facts [Inhabited α] {ch : Channel α} {h t : Nat} {q : List α}
    (inv : Inv ch h t q) (he : h = t) :
    ch.head ≠ ch.stamps.getD (ch.head &&& (ch.one_lap - 1)) 0 ∧
    wadd ch.w (ch.stamps.getD (ch.head &&& (ch.one_lap - 1)) 0) ch.one_lap = ch.head ∧
    wadd ch.w ch.tail ch.one_lap = ch.head := by
  have g := inv.geom
  subst he
  have hidx : ch.head &&& (ch.one_lap - 1) = h % ch.cap := by
    rw [inv.head_eq, g.and_mask_eq, g.stampF_mod_L]
  have hhixcap : h % ch.cap < ch.cap := Nat.mod_lt _ inv.cap_pos
  have hpos : slotPos ch.cap h (h % ch.cap) = h :=
    slotPos_eq inv.cap_pos (le_refl h) (by have := inv.cap_pos; omega)
  have hstamp : ch.stamps.getD (ch.head &&& (ch.one_lap - 1)) 0
      = stampE ch.cap ch.one_lap (2 ^ ch.w) h := by
    rw [hidx, inv.stamp_eq _ hhixcap]
    unfold slotStamp
    rw [hpos, if_neg (lt_irrefl h)]
  refine ⟨?_, ?_, ?_⟩
  · rw [hstamp, inv.head_eq]
    exact Geom.stampF_ne_stampE g h
  · rw [hstamp, inv.head_eq]
    exact stampE_add_L _ _ _ _
  · rw [inv.head_eq, inv.tail_eq]
    exact stampE_add_L _ _ _ _

theorem start_recv_empty_open [Inhabited α] {ch : Channel α} {h t : Nat} {q : List α}
    (inv : Inv ch h t q) (he : h = t) (hc : ch.is_closed = false) :
    ch.start_recv = (.notReady, ch) := by
  obtain ⟨h1, h2, h3⟩ := start_recv_empty_facts inv he
  exact start_recv_notready ch hc h1 h2 h3

theorem start_recv_empty_closed [Inhabited α] {ch : Channel α} {h t : Nat} {q : List α}
    (inv : Inv ch h t q) (he : h = t) (hc : ch.is_closed = true) :
    ch.start_recv = (.ready ⟨none, 0⟩, ch) := by
  obtain ⟨h1, h2, h3⟩ := start_recv_empty_facts inv he
  exact start_recv_closed_empty ch hc h1 h2 h3


/-! ### Committed operations on reachable states -/

theorem try_send_closed {α : Type} (ch : Channel α) (hc : ch.is_closed = true) (m : α) :
    ch.try_send m = some (.error (.Disconnected m), ch) := by
  unfold Channel.try_send Channel.start_send Channel.write
  simp [hc]

theorem send_closed {α : Type} (ch : Channel α) (hc : ch.is_closed = true) (m : α) :
    ch.send m = some (.error ⟨m⟩, ch) := by
  unfold Channel.send Channel.start_send Channel.write
  simp [hc]

theorem try_send_full_res [Inhabited α] {ch : Channel α} {h t : Nat} {q : List α}
    (inv : Inv ch h t q) (hc : ch.is_closed = false) (hf : t = h + ch.cap) (m : α) :
    ch.try_send m = some (.error (.Full m), ch) := by
  unfold Channel.try_send
  rw [start_send_full inv hc hf]

theorem send_full_res [Inhabited α] {ch : Channel α} {h t : Nat} {q : List α}
    (inv : Inv ch h t q) (hc : ch.is_closed = false) (hf : t = h + ch.cap) (m : α) :
    ch.send m = none := by
  unfold Channel.send
  rw [start_send_full inv hc hf]

theorem try_recv_empty_open_res [Inhabited α] {ch : Channel α} {h t : Nat} {q : List α}
    (inv : Inv ch h t q) (he : h = t) (hc : ch.is_closed = false) :
    ch.try_recv = some (.error .Empty, ch) := by
  unfold Channel.try_recv
  rw [start_recv_empty_open inv he hc]

theorem try_recv_empty_closed_res [Inhabited α] {ch : Channel α} {h t : Nat} {q : List α}
    (inv : Inv ch h t q) (he : h = t) (hc : ch.is_closed = true) :
    ch.try_recv = some (.error .Disconnected, ch) := by
  unfold Channel.try_recv
  rw [start_recv_empty_closed inv he hc]
  unfold Channel.read
  rfl

theorem recv_empty_closed_res [Inhabited α] {ch : Channel α} {h t : Nat} {q : List α}
    (inv : Inv ch h t q) (he : h = t) (hc : ch.is_closed = true) :
    ch.recv = some (.error ⟨⟩, ch) := by
  unfold Channel.recv
  rw [start_recv_empty_closed inv he hc]
  unfold Channel.read
  rfl

theorem recv_empty_open_res [Inhabited α] {ch : Channel α} {h t : Nat} {q : List α}
    (inv : Inv ch h t q) (he : h = t) (hc : ch.is_closed = false) :
    ch.recv = none := by
  unfold Channel.recv
  rw [start_recv_empty_open inv he hc]

theorem close_inv [Inhabited α] {ch : Channel α} {h t : Nat} {q : List α}
    (inv : Inv ch h t q) : Inv ch.close h t q :=
  ⟨inv.cap_pos, inv.cap_le, inv.pow, inv.four, inv.hle, inv.tle, inv.head_eq,
   inv.tail_eq, inv.stamps_len, inv.msgs_len, inv.stamp_eq, inv.q_len, inv.msg_eq⟩

/-- A successful `try_send` commits the message at the back of the
abstract queue and preserves the invariant. -/
theorem try_send_spec [Inhabited α] {ch : Channel α} {h t : Nat} {q : List α}
    (inv : Inv ch h t q) (hc : ch.is_closed = false) (hnf : t < h + ch.cap) (m : α) :
    ch.try_send m =
      some (.ok (),
        { ch with
            tail := stampE ch.cap ch.one_lap (2 ^ ch.w) (t + 1)
            stamps := ch.stamps.set (t % ch.cap) (stampF ch.cap ch.one_lap (2 ^ ch.w) t)
            msgs := ch.msgs.set (t % ch.cap) m }) ∧
    Inv { ch with
            tail := stampE ch.cap ch.one_lap (2 ^ ch.w) (t + 1)
            stamps := ch.stamps.set (t % ch.cap) (stampF ch.cap ch.one_lap (2 ^ ch.w) t)
            msgs := ch.msgs.set (t % ch.cap) m }
        h (t + 1) (q ++ [m]) := by
  have g := inv.geom
  have htixcap : t % ch.cap < ch.cap := Nat.mod_lt _ inv.cap_pos
  have hpos : slotPos ch.cap h (t % ch.cap) = t := slotPos_eq inv.cap_pos inv.hle hnf
  constructor
  · unfold Channel.try_send
    rw [start_send_ok inv hc hnf]
    rfl
  · have hht := inv.hle
    refine ⟨inv.cap_pos, inv.cap_le, inv.pow, inv.four, by omega, ?_,
      inv.head_eq, rfl, ?_, ?_, ?_, ?_, ?_⟩
    · dsimp only
      omega
    · dsimp only
      simpa using inv.stamps_len
    · dsimp only
      simpa using inv.msgs_len
    · intro i hi
      dsimp only at hi ⊢
      by_cases hit : i = t % ch.cap
      · subst hit
        rw [getD_set_self _ _ _ _ (by rw [inv.stamps_len]; exact htixcap)]
        unfold slotStamp
        rw [hpos, if_pos (by omega)]
      · rw [getD_set_ne _ _ _ (fun he => hit he.symm), inv.stamp_eq i hi]
        unfold slotStamp
        have hne : slotPos ch.cap h i ≠ t := by
          intro he
          exact hit (by rw [← slotPos_mod inv.cap_pos h hi, he])
        rcases Nat.lt_or_ge (slotPos ch.cap h i) t with hlt | hge
        · rw [if_pos hlt, if_pos (by omega)]
        · rw [if_neg (by omega), if_neg (by omega)]
    · have hq := inv.q_len
      simp
      omega
    · intro j hj
      dsimp only at hj ⊢
      by_cases hjt : j = t - h
      · subst hjt
        have hidx2 : (h + (t - h)) % ch.cap = t % ch.cap := by
          congr 1
          omega
        rw [hidx2, getD_set_self _ _ _ _ (by rw [inv.msgs_len]; exact htixcap)]
        have hq : q.length = t - h := inv.q_len
        rw [← hq, getD_append_len]
      · have hjlt : j < t - h := by omega
        have hne : (h + j) % ch.cap ≠ t % ch.cap := by
          intro he
          have h1 : slotPos ch.cap h ((h + j) % ch.cap) = h + j :=
            slotPos_eq inv.cap_pos (by omega) (by omega)
          rw [he, hpos] at h1
          omega
        rw [getD_set_ne _ _ _ (fun he => hne he.symm), inv.msg_eq j hjlt,
          getD_append_lt _ _ _ _ (by rw [inv.q_len]; exact hjlt)]

/-- A successful `try_recv` removes the front of the abstract queue and
preserves the invariant. -/
theorem try_recv_spec [Inhabited α] {ch : Channel α} {h t : Nat} {q : List α}
    (inv : Inv ch h t q) (hne : h < t) :
    ch.try_recv =
      some (.ok (q.getD 0 default),
        { ch with
            head := stampF ch.cap ch.one_lap (2 ^ ch.w) (h + 1)
            stamps := ch.stamps.set (h % ch.cap)
              (stampE ch.cap ch.one_lap (2 ^ ch.w) (h + ch.cap)) }) ∧
    Inv { ch with
            head := stampF ch.cap ch.one_lap (2 ^ ch.w) (h + 1)
            stamps := ch.stamps.set (h % ch.cap)
              (stampE ch.cap ch.one_lap (2 ^ ch.w) (h + ch.cap)) }
        (h + 1) t q.tail := by
  have g := inv.geom
  have hhixcap : h % ch.cap < ch.cap := Nat.mod_lt _ inv.cap_pos
  have hmsg : ch.msgs.getD (h % ch.cap) default = q.getD 0 default := by
    have := inv.msg_eq 0 (by omega)
    simpa using this
  constructor
  · unfold Channel.try_recv
    rw [start_recv_ok inv hne]
    unfold Channel.read
    simp only
    rw [hmsg]
  · refine ⟨inv.cap_pos, inv.cap_le, inv.pow, inv.four, by omega, ?_,
      rfl, inv.tail_eq, ?_, ?_, ?_, ?_, ?_⟩
    · dsimp only
      have := inv.tle
      omega
    · dsimp only
      simpa using inv.stamps_len
    · exact inv.msgs_len
    · intro i hi
      dsimp only at hi ⊢
      by_cases hih : i = h % ch.cap
      · subst hih
        rw [getD_set_self _ _ _ _ (by rw [inv.stamps_len]; exact hhixcap)]
        unfold slotStamp
        rw [slotPos_head_shift inv.cap_pos h, if_neg (by have := inv.tle; omega)]
      · rw [getD_set_ne _ _ _ (fun he => hih he.symm), inv.stamp_eq i hi]
        unfold slotStamp
        rw [slotPos_shift inv.cap_pos hi (fun he => hih he)]
    · have hq := inv.q_len
      simp
      omega
    · intro j hj
      dsimp only at hj ⊢
      have h1 : h + 1 + j = h + (j + 1) := by omega
      have h2 := inv.msg_eq (j + 1) (by omega)
      rw [getD_tail, h1, h2]


/-! ### Properties of `nextPow2` -/

theorem nextPow2Go_pow (n fuel : Nat) : ∀ (p j : Nat), p = 2 ^ j →
    ∃ l, nextPow2Go n fuel p = 2 ^ l := by
  induction fuel with
  | zero => intro p j hp; exact ⟨j, hp⟩
  | succ fuel ih =>
      intro p j hp
      simp only [nextPow2Go]
      split
      · exact ⟨j, hp⟩
      · exact ih (p * 2) (j + 1) (by rw [hp]; ring)

theorem nextPow2Go_ge (n : Nat) : ∀ (fuel p : Nat), n ≤ p * 2 ^ fuel →
    n ≤ nextPow2Go n fuel p := by
  intro fuel
  induction fuel with
  | zero => intro p hp; simpa [nextPow2Go] using hp
  | succ fuel ih =>
      intro p hp
      simp only [nextPow2Go]
      split
      · assumption
      · exact ih (p * 2) (by calc n ≤ p * 2 ^ (fuel + 1) := hp
          _ = p * 2 * 2 ^ fuel := by ring)

theorem nextPow2Go_le (n k : Nat) (hn : n ≤ 2 ^ k) : ∀ (fuel p j : Nat),
    p = 2 ^ j → p ≤ 2 ^ k → nextPow2Go n fuel p ≤ 2 ^ k := by
  intro fuel
  induction fuel with
  | zero => intro p j _ hpk; simpa [nextPow2Go] using hpk
  | succ fuel ih =>
      intro p j hpj hpk
      simp only [nextPow2Go]
      split
      · assumption
      · rename_i hlt
        have hjk : j < k := by
          by_contra hcon
          have h2 : (2:Nat) ^ k ≤ 2 ^ j := Nat.pow_le_pow_right (by norm_num) (by omega)
          omega
        exact ih (p * 2) (j + 1) (by rw [hpj]; ring)
          (by rw [hpj]
              calc (2:Nat) ^ j * 2 = 2 ^ (j + 1) := by ring
                _ ≤ 2 ^ k := Nat.pow_le_pow_right (by norm_num) (by omega))

theorem le_nextPow2 (n : Nat) : n ≤ nextPow2 n :=
  nextPow2Go_ge n n 1 (by simpa using (Nat.lt_two_pow n).le)

theorem nextPow2_le {n k : Nat} (h : n ≤ 2 ^ k) : nextPow2 n ≤ 2 ^ k :=
  nextPow2Go_le n k h n 1 0 rfl Nat.one_le_two_pow

theorem nextPow2_pow (n : Nat) : ∃ l, nextPow2 n = 2 ^ l :=
  nextPow2Go_pow n n 1 0 rfl

/-! ### The invariant holds for freshly constructed channels -/

theorem init_inv {α : Type} [Inhabited α] {w cap : Nat} {ch : Channel α}
    (hw : with_capacity α w cap = some ch) : Inv ch 0 0 [] := by
  unfold with_capacity at hw
  split_ifs at hw with h1 h2
  have hcap : 0 < cap := by omega
  have hbound : cap ≤ (2 ^ w - 1) / 4 := by omega
  -- the word has at least three bits
  have hw3 : 3 ≤ w := by
    by_contra hcon
    interval_cases w <;> simp_all
  have hpow4 : (2:Nat) ^ w = 2 ^ (w - 2) * 4 := by
    have : (2:Nat) ^ w = 2 ^ ((w - 2) + 2) := by congr 1; omega
    rw [this, pow_add]
    norm_num
  have hlimit : (2 ^ w - 1) / 4 = 2 ^ (w - 2) - 1 := by
    have h2p : 0 < (2:Nat) ^ (w - 2) := pow_pos (by norm_num) _
    omega
  have hcap2 : cap ≤ 2 ^ (w - 2) := by
    have h2p : 0 < (2:Nat) ^ (w - 2) := pow_pos (by norm_num) _
    omega
  have hL := le_nextPow2 cap
  have hLle : nextPow2 cap ≤ 2 ^ (w - 2) := nextPow2_le hcap2
  obtain ⟨l, hl⟩ := nextPow2_pow cap
  have hlw : l ≤ w := by
    by_contra hcon
    have : (2:Nat) ^ w < 2 ^ l := by
      apply Nat.pow_lt_pow_right (by norm_num)
      omega
    have hMle : (2:Nat) ^ (w - 2) ≤ 2 ^ w := Nat.pow_le_pow_right (by norm_num) (by omega)
    omega
  have hfour : 4 * nextPow2 cap ≤ 2 ^ w := by omega
  have hLM : nextPow2 cap < 2 ^ w := by
    have := le_nextPow2 cap
    omega
  injection hw with hch
  subst hch
  refine ⟨hcap, hL, ⟨l, hlw, hl⟩, hfour, le_refl 0, by dsimp only; omega, ?_, ?_,
    by simp, by simp, ?_, rfl, ?_⟩
  · show nextPow2 cap = stampF cap (nextPow2 cap) (2 ^ w) 0
    unfold stampF preF
    rw [Nat.zero_div, Nat.zero_mod]
    simp only [Nat.mul_zero, Nat.zero_add, Nat.one_mul, Nat.add_zero]
    rw [Nat.mod_eq_of_lt hLM]
  · show 0 = stampE cap (nextPow2 cap) (2 ^ w) 0
    unfold stampE preE
    simp
  · intro i hi
    dsimp only at hi ⊢
    rw [getD_range i cap hi]
    unfold slotStamp
    have hpos : slotPos cap 0 i = i := by
      unfold slotPos
      simp only [Nat.zero_mod, Nat.sub_zero, Nat.zero_add]
      rw [Nat.add_mod_right, Nat.mod_eq_of_lt hi]
    rw [hpos, if_neg (by omega)]
    unfold stampE preE
    rw [Nat.div_eq_of_lt hi, Nat.mod_eq_of_lt hi]
    simp only [Nat.mul_zero, Nat.zero_mul, Nat.zero_add]
    rw [Nat.mod_eq_of_lt (by omega)]
  · intro j hj
    exact absurd hj (by omega)


/-! ### Further stamp arithmetic -/

theorem mul_add_div_self {b : Nat} (a r : Nat) (hb : 0 < b) (hr : r < b) :
    (a * b + r) / b = a := by
  rw [Nat.mul_comm, Nat.mul_add_div hb, Nat.div_eq_of_lt hr, Nat.add_zero]

namespace Geom

variable {w cap L : Nat}

theorem wadd_L_mod (g : Geom w cap L) (x : Nat) : wadd w x L % L = x % L := by
  unfold wadd
  rw [Nat.mod_mod_of_dvd _ g.dvd, Nat.add_mod_right]

theorem km_ge_four (g : Geom w cap L) : 4 ≤ 2 ^ w / L :=
  (Nat.le_div_iff_mul_le g.Lpos).mpr g.four

theorem two_dvd_km (g : Geom w cap L) : 2 ∣ 2 ^ w / L := by
  obtain ⟨l, hlw, rfl⟩ := g.pow
  have hlw2 : l + 2 ≤ w := by
    by_contra hcon
    have h1 : (2:Nat) ^ w ≤ 2 ^ (l + 1) := Nat.pow_le_pow_right (by norm_num) (by omega)
    have h2 : (2:Nat) ^ (l + 2) ≤ 2 ^ w := by
      have := g.four
      calc (2:Nat) ^ (l + 2) = 4 * 2 ^ l := by ring
        _ ≤ 2 ^ w := g.four
    have h3 : (2:Nat) ^ (l + 1) < 2 ^ (l + 2) := Nat.pow_lt_pow_right (by norm_num) (by omega)
    omega
  rw [Nat.pow_div (by omega) (by norm_num)]
  exact dvd_pow_self 2 (by omega)

theorem tail_lap_even (g : Geom w cap L) (p : Nat) :
    stampE cap L (2 ^ w) p / L % 2 = 0 := by
  rw [g.stampE_canon, mul_add_div_self _ _ g.Lpos
    (lt_of_lt_of_le (Nat.mod_lt _ g.cap_pos) g.cap_le)]
  rw [Nat.mod_mod_of_dvd _ g.two_dvd_km]
  exact Nat.mul_mod_right 2 _

theorem head_lap_odd (g : Geom w cap L) (p : Nat) :
    stampF cap L (2 ^ w) p / L % 2 = 1 := by
  rw [g.stampF_canon, mul_add_div_self _ _ g.Lpos
    (lt_of_lt_of_le (Nat.mod_lt _ g.cap_pos) g.cap_le)]
  rw [Nat.mod_mod_of_dvd _ g.two_dvd_km]
  omega

theorem stampE_succ_ne (g : Geom w cap L) (p : Nat) :
    stampE cap L (2 ^ w) (p + 1) ≠ stampE cap L (2 ^ w) p := by
  intro hEq
  have hmod : (p + 1) % cap = p % cap := by
    have h1 : stampE cap L (2 ^ w) (p + 1) % L = stampE cap L (2 ^ w) p % L := by
      rw [hEq]
    rwa [g.stampE_mod_L, g.stampE_mod_L] at h1
  rcases Nat.lt_or_ge (p % cap + 1) cap with hlt | hge
  · rw [(div_mod_succ hlt).2] at hmod
    omega
  · have heq2 : p % cap + 1 = cap := by
      have := Nat.mod_lt p g.cap_pos
      omega
  -- if the capacity is one, the index carries no information: compare laps
    by_cases hcap1 : cap = 1
    · subst hcap1
      rw [g.stampE_canon, g.stampE_canon] at hEq
      simp only [Nat.div_one, Nat.mod_one, Nat.add_zero] at hEq
      have hcl := Nat.eq_of_mul_eq_mul_right g.Lpos hEq
      have h2 : 2 * (p + 1) = 2 * p + 2 := by ring
      rw [h2] at hcl
      have h4 := g.km_ge_four
      exact absurd hcl (add_mod_ne (by norm_num) (by omega))
    · rw [(div_mod_wrap g.cap_pos heq2).2] at hmod
      have := Nat.mod_lt p g.cap_pos
      omega

theorem stampF_succ_ne (g : Geom w cap L) (p : Nat) :
    stampF cap L (2 ^ w) (p + 1) ≠ stampF cap L (2 ^ w) p := by
  intro hEq
  have hmod : (p + 1) % cap = p % cap := by
    have h1 : stampF cap L (2 ^ w) (p + 1) % L = stampF cap L (2 ^ w) p % L := by
      rw [hEq]
    rwa [g.stampF_mod_L, g.stampF_mod_L] at h1
  rcases Nat.lt_or_ge (p % cap + 1) cap with hlt | hge
  · rw [(div_mod_succ hlt).2] at hmod
    omega
  · have heq2 : p % cap + 1 = cap := by
      have := Nat.mod_lt p g.cap_pos
      omega
    by_cases hcap1 : cap = 1
    · subst hcap1
      rw [g.stampF_canon, g.stampF_canon] at hEq
      simp only [Nat.div_one, Nat.mod_one, Nat.add_zero] at hEq
      have hcl := Nat.eq_of_mul_eq_mul_right g.Lpos hEq
      have h2 : 2 * (p + 1) + 1 = 2 * p + 1 + 2 := by ring
      rw [h2] at hcl
      have h4 := g.km_ge_four
      exact absurd hcl (add_mod_ne (by norm_num) (by omega))
    · rw [(div_mod_wrap g.cap_pos heq2).2] at hmod
      have := Nat.mod_lt p g.cap_pos
      omega

end Geom

/-! ### Observability on reachable states -/

theorem len_eq [Inhabited α] {ch : Channel α} {h t : Nat} {q : List α}
    (inv : Inv ch h t q) : ch.len = t - h := by
  have g := inv.geom
  obtain ⟨d, rfl⟩ : ∃ d, t = h + d := ⟨t - h, by have := inv.hle; omega⟩
  have hd : d ≤ ch.cap := by have := inv.tle; omega
  have hrcap : h % ch.cap < ch.cap := Nat.mod_lt _ inv.cap_pos
  unfold Channel.len
  dsimp only
  rw [inv.head_eq, inv.tail_eq, g.and_mask_eq, g.and_mask_eq, g.stampE_mod_L,
    g.stampF_mod_L]
  have hm : (h + d) % ch.cap = (h % ch.cap + d) % ch.cap := by
    conv_lhs => rw [Nat.add_mod]
    rw [add_mod_mod_eq]
  rcases Nat.lt_or_ge (h % ch.cap + d) ch.cap with hc1 | hc2
  · have ht : (h + d) % ch.cap = h % ch.cap + d := by rw [hm, Nat.mod_eq_of_lt hc1]
    rcases Nat.eq_zero_or_pos d with rfl | hdpos
    · simp only [Nat.add_zero] at ht ⊢
      rw [if_neg (lt_irrefl _), if_neg (lt_irrefl _),
        if_pos (show wadd ch.w (stampE ch.cap ch.one_lap (2 ^ ch.w) h) ch.one_lap
          = stampF ch.cap ch.one_lap (2 ^ ch.w) h from stampE_add_L _ _ _ _)]
      omega
    · rw [ht, if_pos (by omega)]
      omega
  · have hsub : (h + d) % ch.cap = h % ch.cap + d - ch.cap := by
      rw [hm, Nat.mod_eq_sub_mod hc2, Nat.mod_eq_of_lt (by omega)]
    rcases Nat.lt_or_ge d ch.cap with hdlt | hdge
    · rw [hsub, if_neg (by omega), if_pos (by omega)]
      omega
    · have hdc : d = ch.cap := by omega
      subst hdc
      have hcond : ¬ (wadd ch.w (stampE ch.cap ch.one_lap (2 ^ ch.w) (h + ch.cap))
          ch.one_lap = stampF ch.cap ch.one_lap (2 ^ ch.w) h) := by
        unfold wadd
        exact g.emptycheck_ne h
      rw [hsub, if_neg (by omega), if_neg (by omega), if_neg hcond]
      omega

theorem is_empty_iff [Inhabited α] {ch : Channel α} {h t : Nat} {q : List α}
    (inv : Inv ch h t q) : ch.is_empty = true ↔ h = t := by
  have g := inv.geom
  unfold Channel.is_empty
  simp only [decide_eq_true_eq]
  constructor
  · intro hEq
    rw [inv.head_eq, inv.tail_eq] at hEq
    have hmodL : t % ch.cap = h % ch.cap := by
      have h1 : wadd ch.w (stampE ch.cap ch.one_lap (2 ^ ch.w) t) ch.one_lap % ch.one_lap
          = stampF ch.cap ch.one_lap (2 ^ ch.w) h % ch.one_lap := by rw [hEq]
      rwa [g.wadd_L_mod, g.stampE_mod_L, g.stampF_mod_L] at h1
    have hdvd2 : ch.cap ∣ (t - h) := by
      exact Nat.dvd_of_mod_eq_zero (Nat.sub_mod_eq_zero_of_mod_eq hmodL)
    have hle := inv.hle
    have htle := inv.tle
    rcases Nat.eq_zero_or_pos (t - h) with h0 | hpos
    · omega
    · exfalso
      have hcap_le : ch.cap ≤ t - h := Nat.le_of_dvd hpos hdvd2
      have ht : t = h + ch.cap := by omega
      rw [ht] at hEq
      unfold wadd at hEq
      exact g.emptycheck_ne h hEq
  · rintro rfl
    rw [inv.head_eq, inv.tail_eq]
    unfold wadd
    exact stampE_add_L _ _ _ _

theorem is_full_iff [Inhabited α] {ch : Channel α} {h t : Nat} {q : List α}
    (inv : Inv ch h t q) : ch.is_full = true ↔ t = h + ch.cap := by
  have g := inv.geom
  unfold Channel.is_full
  simp only [decide_eq_true_eq]
  constructor
  · intro hEq
    rw [inv.head_eq, inv.tail_eq] at hEq
    have hmodL : t % ch.cap = h % ch.cap := by
      have h1 : wadd ch.w (stampF ch.cap ch.one_lap (2 ^ ch.w) h) ch.one_lap % ch.one_lap
          = stampE ch.cap ch.one_lap (2 ^ ch.w) t % ch.one_lap := by rw [hEq]
      rw [g.wadd_L_mod, g.stampE_mod_L, g.stampF_mod_L] at h1
      exact h1.symm
    have hdvd2 : ch.cap ∣ (t - h) := by
      exact Nat.dvd_of_mod_eq_zero (Nat.sub_mod_eq_zero_of_mod_eq hmodL)
    have hle := inv.hle
    have htle := inv.tle
    rcases Nat.eq_zero_or_pos (t - h) with h0 | hpos
    · exfalso
      have ht : t = h := by omega
      rw [ht] at hEq
      unfold wadd at hEq
      exact g.fullcheck_ne h hEq
    · have hcap_le : ch.cap ≤ t - h := Nat.le_of_dvd hpos hdvd2
      omega
  · rintro rfl
    rw [inv.head_eq, inv.tail_eq]
    unfold wadd
    exact stampF_add_L _ _ inv.cap_pos h


/-! ### Concrete executions (word width 8 for the scenarios) -/

/-- Placeholder channel used only as the default of `Option.getD`. -/
def chDummy : Channel Nat := ⟨0, 0, 0, 0, 0, [], [], false⟩

/-- State after a `try_send` (the dummy is never reached below). -/
def sendSt (ch : Channel Nat) (m : Nat) : Channel Nat :=
  ((ch.try_send m).map Prod.snd).getD chDummy

/-- State after a `try_recv`. -/
def recvSt (ch : Channel Nat) : Channel Nat :=
  ((ch.try_recv).map Prod.snd).getD chDummy

/-- Fresh capacity-2 channel. -/
def sc1 : Channel Nat := (with_capacity Nat 8 2).getD chDummy

def c1a : Channel Nat := sendSt sc1 1
def c1b : Channel Nat := sendSt c1a 2
def c1c : Channel Nat := recvSt c1b
def c1d : Channel Nat := sendSt c1c 3
def c1e : Channel Nat := recvSt c1d

/-- Fresh capacity-4 channel. -/
def sc2 : Channel Nat := (with_capacity Nat 8 4).getD chDummy

/-- cap 4, send 10, 20, 30, then close. -/
def c2c : Channel Nat := (sendSt (sendSt (sendSt sc2 10) 20) 30).close

def c2d : Channel Nat := recvSt c2c
def c2e : Channel Nat := recvSt c2d
def c2f : Channel Nat := recvSt c2e

/-- cap 1, one message sent: the channel is full. -/
def c4open : Channel Nat := sendSt ((with_capacity Nat 8 1).getD chDummy) 1

/-- cap 1, full, then closed. -/
def c4closed : Channel Nat := c4open.close

theorem inv_c2c : Inv c2c 0 3 [10, 20, 30] :=
  ⟨by decide, by decide, ⟨2, by decide⟩, by decide, by decide, by decide, by decide,
   by decide, by decide, by decide, by decide, by decide, by decide⟩

theorem inv_c4open : Inv c4open 0 1 [1] :=
  ⟨by decide, by decide, ⟨0, by decide⟩, by decide, by decide, by decide, by decide,
   by decide, by decide, by decide, by decide, by decide, by decide⟩

/-! ### The claims -/

/-- C1: executed sequentially the channel refines a FIFO queue — a
successful `try_send` appends its message at the back of the abstract
queue and a successful `try_recv` returns the front, so messages are
received exactly in the order they were sent.  In particular, for
capacity 2: after send 1, send 2, `try_send 3` returns `Full 3`; a
receive yields 1; then `try_send 3` succeeds; the next two receives
yield 2 and then 3. -/
theorem C1_fifo :
    (∀ (α : Type) [Inhabited α] (ch : Channel α) (h t : Nat) (q : List α) (m : α),
      Inv ch h t q → ch.is_closed = false → t < h + ch.cap →
      ∃ ch', ch.try_send m = some (.ok (), ch') ∧ Inv ch' h (t + 1) (q ++ [m])) ∧
    (∀ (α : Type) [Inhabited α] (ch : Channel α) (h t : Nat) (q : List α),
      Inv ch h t q → h < t →
      ∃ ch', ch.try_recv = some (.ok (q.getD 0 default), ch') ∧
        Inv ch' (h + 1) t q.tail) ∧
    (c1b.try_send 3).map Prod.fst = some (.error (.Full 3)) ∧
    (c1b.try_recv).map Prod.fst = some (.ok 1) ∧
    (c1c.try_send 3).map Prod.fst = some (.ok ()) ∧
    (c1d.try_recv).map Prod.fst = some (.ok 2) ∧
    (c1e.try_recv).map Prod.fst = some (.ok 3) := by
  refine ⟨?_, ?_, by decide, by decide, by decide, by decide, by decide⟩
  · intro α _ ch h t q m inv hc hnf
    exact ⟨_, (try_send_spec inv hc hnf m).1, (try_send_spec inv hc hnf m).2⟩
  · intro α _ ch h t q inv hlt
    exact ⟨_, (try_recv_spec inv hlt).1, (try_recv_spec inv hlt).2⟩

theorem C1_fifo_witness :
    ∃ ch', sc1.try_send 7 = some (.ok (), ch') ∧ Inv ch' 0 1 ([] ++ [7]) :=
  C1_fifo.1 Nat sc1 0 0 [] 7 (@init_inv Nat _ 8 2 sc1 (by decide)) (by decide) (by decide)

/-- C2: after `close()` the queued messages are still drained in FIFO
order; once the queue is empty every further receive fails with
`Disconnected` (`try_recv`) resp. `RecvError` (`recv`).  In particular
for capacity 4 after send 10, 20, 30 and `close()`. -/
theorem C2_close_drain :
    (∀ (α : Type) [Inhabited α] (ch : Channel α) (h t : Nat) (q : List α),
      Inv ch h t q → ch.is_closed = true → h < t →
      ∃ ch', ch.try_recv = some (.ok (q.getD 0 default), ch') ∧
        Inv ch' (h + 1) t q.tail ∧ ch'.is_closed = true) ∧
    (∀ (α : Type) [Inhabited α] (ch : Channel α) (h t : Nat) (q : List α),
      Inv ch h t q → ch.is_closed = true → h = t →
      ch.try_recv = some (.error .Disconnected, ch) ∧
      ch.recv = some (.error ⟨⟩, ch)) ∧
    (c2c.try_recv).map Prod.fst = some (.ok 10) ∧
    (c2d.try_recv).map Prod.fst = some (.ok 20) ∧
    (c2e.try_recv).map Prod.fst = some (.ok 30) ∧
    c2f.try_recv = some (.error .Disconnected, c2f) ∧
    c2f.recv = some (.error ⟨⟩, c2f) := by
  refine ⟨?_, ?_, by decide, by decide, by decide, by decide, by decide⟩
  · intro α _ ch h t q inv hc hlt
    exact ⟨_, (try_recv_spec inv hlt).1, (try_recv_spec inv hlt).2, hc⟩
  · intro α _ ch h t q inv hc he
    exact ⟨try_recv_empty_closed_res inv he hc, recv_empty_closed_res inv he hc⟩

theorem C2_close_drain_witness :
    ∃ ch', c2c.try_recv = some (.ok 10, ch') ∧
      Inv ch' 1 3 [20, 30] ∧ ch'.is_closed = true :=
  C2_close_drain.1 Nat c2c 0 3 [10, 20, 30] inv_c2c (by decide) (by decide)

/-- C3: after `close()`, every send fails with `Disconnected` carrying
the exact message back — `try_send m` returns `Disconnected m` and
`send m` returns `SendError m` — on any channel state, and the failing
call leaves the channel unchanged. -/
theorem C3_send_after_close :
    ∀ (α : Type) (ch : Channel α) (m : α), ch.is_closed = true →
      ch.try_send m = some (.error (.Disconnected m), ch) ∧
      ch.send m = some (.error ⟨m⟩, ch) :=
  fun _ ch m hc => ⟨try_send_closed ch hc m, send_closed ch hc m⟩

theorem C3_send_after_close_witness :
    c4closed.try_send 9 = some (.error (.Disconnected 9), c4closed) ∧
    c4closed.send 9 = some (.error ⟨9⟩, c4closed) :=
  C3_send_after_close Nat c4closed 9 (by decide)


theorem some_pair_eq {β γ : Type} {x y : β} {a b : γ}
    (h : (some (x, a) : Option (β × γ)) = some (y, b)) : x = y ∧ a = b := by
  injection h with h1
  injection h1 with h2 h3
  exact ⟨h2, h3⟩

theorem inv_c1a : Inv c1a 0 1 [1] :=
  ⟨by decide, by decide, ⟨1, by decide⟩, by decide, by decide, by decide, by decide,
   by decide, by decide, by decide, by decide, by decide, by decide⟩

theorem inv_c1b : Inv c1b 0 2 [1, 2] :=
  ⟨by decide, by decide, ⟨1, by decide⟩, by decide, by decide, by decide, by decide,
   by decide, by decide, by decide, by decide, by decide, by decide⟩

/-- C4 (counterexample): on a channel that is full *and* closed,
`is_full()` returns `true`, yet an immediate `try_send` returns
`Disconnected(msg)`, not `Full(msg)`: the claim as stated fails once
the channel is closed. -/
theorem C4_counterexample :
    c4closed.is_full = true ∧
    (c4closed.try_send 2).map Prod.fst = some (.error (.Disconnected 2)) ∧
    (TrySendError.Disconnected 2 : TrySendError Nat) ≠ .Full 2 :=
  ⟨by decide, by decide, by decide⟩

/-- C4 (amended): whenever `is_full()` returns true *and `is_closed()`
returns false*, a `try_send msg` with no intervening operation returns
`Full msg`; and whenever `is_empty()` returns true and `is_closed()`
returns false, a `try_recv` with no intervening operation returns
`Empty`. -/
theorem C4_full_empty_guard :
    ∀ (α : Type) [Inhabited α] (ch : Channel α) (h t : Nat) (q : List α),
      Inv ch h t q →
      (ch.is_full = true → ch.is_closed = false →
        ∀ m, ch.try_send m = some (.error (.Full m), ch)) ∧
      (ch.is_empty = true → ch.is_closed = false →
        ch.try_recv = some (.error .Empty, ch)) := by
  intro α _ ch h t q inv
  constructor
  · intro hf hc m
    exact try_send_full_res inv hc ((is_full_iff inv).mp hf) m
  · intro he hc
    exact try_recv_empty_open_res inv ((is_empty_iff inv).mp he) hc

theorem C4_full_empty_guard_witness :
    c4open.try_send 9 = some (.error (.Full 9), c4open) ∧
    sc1.try_recv = some (.error .Empty, sc1) :=
  ⟨(C4_full_empty_guard Nat c4open 0 1 [1] inv_c4open).1 (by decide) (by decide) 9,
   (C4_full_empty_guard Nat sc1 0 0 [] (@init_inv Nat _ 8 2 sc1 (by decide))).2
     (by decide) (by decide)⟩

/-- C5: on every reachable state, `len()` equals the number of queued
messages and lies in `[0, cap]`; a successful `try_send` increases it
by exactly one and a successful `try_recv` decreases it by exactly
one. -/
theorem C5_len :
    ∀ (α : Type) [Inhabited α] (ch : Channel α) (h t : Nat) (q : List α),
      Inv ch h t q →
      ch.len = t - h ∧ ch.len ≤ ch.cap ∧
      (∀ (m : α) (ch' : Channel α), ch.try_send m = some (.ok (), ch') →
        ch'.len = ch.len + 1) ∧
      (∀ (x : α) (ch' : Channel α), ch.try_recv = some (.ok x, ch') →
        ch'.len + 1 = ch.len) := by
  intro α _ ch h t q inv
  have hlen := len_eq inv
  have hht := inv.hle
  have htt := inv.tle
  refine ⟨hlen, by omega, ?_, ?_⟩
  · intro m ch' hs
    by_cases hc : ch.is_closed = true
    · rw [try_send_closed ch hc m] at hs
      simp at hs
    · have hc' : ch.is_closed = false := by simpa using hc
      rcases Nat.lt_or_ge t (h + ch.cap) with hnf | hge
      · have hspec := try_send_spec inv hc' hnf m
        have hch' := (some_pair_eq (hspec.1.symm.trans hs)).2
        rw [← hch', len_eq hspec.2, hlen]
        omega
      · have hf : t = h + ch.cap := by omega
        rw [try_send_full_res inv hc' hf m] at hs
        simp at hs
  · intro x ch' hr
    rcases Nat.lt_or_ge h t with hlt | hge
    · have hspec := try_recv_spec inv hlt
      have hch' := (some_pair_eq (hspec.1.symm.trans hr)).2
      rw [← hch', len_eq hspec.2, hlen]
      omega
    · have he : h = t := by omega
      by_cases hc : ch.is_closed = true
      · rw [try_recv_empty_closed_res inv he hc] at hr
        simp at hr
      · have hc' : ch.is_closed = false := by simpa using hc
        rw [try_recv_empty_open_res inv he hc'] at hr
        simp at hr

theorem C5_len_witness :
    sc1.len = 0 - 0 ∧ c1a.len = sc1.len + 1 :=
  ⟨(C5_len Nat sc1 0 0 [] (@init_inv Nat _ 8 2 sc1 (by decide))).1,
   (C5_len Nat sc1 0 0 [] (@init_inv Nat _ 8 2 sc1 (by decide))).2.2.1 1 c1a (by decide)⟩

/-- C6: on every reachable state the tail's lap is even and the head's
lap is odd; a successful send reservation moves the tail to `tail + 1`
when `index + 1 < cap` and otherwise to `lap + 2·one_lap` reduced
mod `2^w` (so the tail's lap stays even), and a successful receive
reservation advances the head by the same rule (so the head's lap
stays odd). -/
theorem C6_reservation_rule :
    ∀ (α : Type) [Inhabited α] (ch : Channel α) (h t : Nat) (q : List α),
      Inv ch h t q →
      (ch.tail / ch.one_lap % 2 = 0 ∧ ch.head / ch.one_lap % 2 = 1) ∧
      (ch.is_closed = false → t < h + ch.cap →
        (ch.start_send).2.tail =
          (if ch.tail % ch.one_lap + 1 < ch.cap then ch.tail + 1
           else (ch.tail - ch.tail % ch.one_lap + 2 * ch.one_lap) % 2 ^ ch.w) ∧
        (ch.start_send).2.tail / ch.one_lap % 2 = 0) ∧
      (h < t →
        (ch.start_recv).2.head =
          (if ch.head % ch.one_lap + 1 < ch.cap then ch.head + 1
           else (ch.head - ch.head % ch.one_lap + 2 * ch.one_lap) % 2 ^ ch.w) ∧
        (ch.start_recv).2.head / ch.one_lap % 2 = 1) := by
  intro α _ ch h t q inv
  have g := inv.geom
  refine ⟨⟨by rw [inv.tail_eq]; exact g.tail_lap_even t,
          by rw [inv.head_eq]; exact g.head_lap_odd h⟩, ?_, ?_⟩
  · intro hc hnf
    rw [start_send_ok inv hc hnf]
    dsimp only
    refine ⟨?_, g.tail_lap_even (t + 1)⟩
    rw [inv.tail_eq, g.stampE_mod_L]
    rcases Nat.lt_or_ge (t % ch.cap + 1) ch.cap with hlt | hge
    · rw [if_pos hlt]
      exact (g.new_tail_succ hlt).symm
    · have heq : t % ch.cap + 1 = ch.cap := by
        have := Nat.mod_lt t inv.cap_pos
        omega
      rw [if_neg (by omega)]
      have hwrap := g.new_tail_wrap heq
      rw [g.stampE_mod_L] at hwrap
      unfold wadd wmul at hwrap
      rw [Nat.mod_eq_of_lt (show ch.one_lap * 2 < 2 ^ ch.w by
        have := g.twoLltM; omega)] at hwrap
      rw [← hwrap]
      congr 1
      omega
  · intro hlt
    rw [start_recv_ok inv hlt]
    dsimp only
    refine ⟨?_, g.head_lap_odd (h + 1)⟩
    rw [inv.head_eq, g.stampF_mod_L]
    rcases Nat.lt_or_ge (h % ch.cap + 1) ch.cap with hlt2 | hge
    · rw [if_pos hlt2]
      exact (g.new_head_succ hlt2).symm
    · have heq : h % ch.cap + 1 = ch.cap := by
        have := Nat.mod_lt h inv.cap_pos
        omega
      rw [if_neg (by omega)]
      have hwrap := g.new_head_wrap heq
      rw [g.stampF_mod_L] at hwrap
      unfold wadd wmul at hwrap
      rw [Nat.mod_eq_of_lt (show ch.one_lap * 2 < 2 ^ ch.w by
        have := g.twoLltM; omega)] at hwrap
      rw [← hwrap]
      congr 1
      omega

theorem C6_reservation_rule_witness :
    c1a.tail / c1a.one_lap % 2 = 0 ∧
    (c1a.start_send).2.tail =
      (if c1a.tail % c1a.one_lap + 1 < c1a.cap then c1a.tail + 1
       else (c1a.tail - c1a.tail % c1a.one_lap + 2 * c1a.one_lap) % 2 ^ c1a.w) ∧
    (c1a.start_recv).2.head / c1a.one_lap % 2 = 1 :=
  ⟨(C6_reservation_rule Nat c1a 0 1 [1] inv_c1a).1.1,
   ((C6_reservation_rule Nat c1a 0 1 [1] inv_c1a).2.1 (by decide) (by decide)).1,
   ((C6_reservation_rule Nat c1a 0 1 [1] inv_c1a).2.2 (by decide)).2⟩

/-- C7: `with_capacity n` panics (modelled as `none`) exactly when
`n = 0` or `n > MAX / 4` with `MAX = 2^w - 1`; for every `n` in
`[1, MAX/4]` it returns a channel. -/
theorem C7_with_capacity :
    ∀ (α : Type) [Inhabited α] (w n : Nat),
      (with_capacity α w n = none ↔ n = 0 ∨ (2 ^ w - 1) / 4 < n) ∧
      (1 ≤ n → n ≤ (2 ^ w - 1) / 4 → ∃ ch, with_capacity α w n = some ch) := by
  intro α _ w n
  constructor
  · unfold with_capacity
    split_ifs with h1 h2
    · simp [h1]
    · simp [h2]
    · simp [h1, h2]
  · intro hn1 hn2
    unfold with_capacity
    rw [if_neg (by omega), if_neg (by omega)]
    exact ⟨_, rfl⟩

theorem C7_with_capacity_witness :
    with_capacity Nat 8 0 = none ∧ ∃ ch, with_capacity Nat 8 3 = some ch :=
  ⟨(C7_with_capacity Nat 8 0).1.mpr (Or.inl rfl),
   (C7_with_capacity Nat 8 3).2 (by decide) (by decide)⟩

theorem start_send_shape {α : Type} (ch : Channel α) (hc : ch.is_closed = false) :
    (∃ i s ch1, ch.start_send = (.ready ⟨some i, s⟩, ch1)) ∨
    ch.start_send = (.notReady, ch) ∨ ch.start_send = (.spins, ch) := by
  unfold Channel.start_send
  simp only [hc, Bool.false_eq_true, if_false]
  split_ifs
  all_goals
    first
      | exact Or.inl ⟨_, _, _, rfl⟩
      | exact Or.inr (Or.inl rfl)
      | exact Or.inr (Or.inr rfl)

/-- C8: when `try_send` fails, the error carries back exactly the
message passed in — `Full m` or `Disconnected m` — and the failing
call leaves the channel unchanged. -/
theorem C8_try_send_error :
    ∀ (α : Type) (ch : Channel α) (m : α) (e : TrySendError α) (ch' : Channel α),
      ch.try_send m = some (.error e, ch') →
      ch' = ch ∧ (e = .Full m ∨ e = .Disconnected m) := by
  intro α ch m e ch' hs
  by_cases hc : ch.is_closed = true
  · rw [try_send_closed ch hc m] at hs
    obtain ⟨h1, h2⟩ := some_pair_eq hs
    injection h1 with h3
    exact ⟨h2.symm, Or.inr h3.symm⟩
  · have hc' : ch.is_closed = false := by simpa using hc
    rcases start_send_shape ch hc' with ⟨i, s, ch1, hsh⟩ | hsh | hsh
    · unfold Channel.try_send at hs
      rw [hsh] at hs
      simp [Channel.write] at hs
    · unfold Channel.try_send at hs
      rw [hsh] at hs
      obtain ⟨h1, h2⟩ := some_pair_eq hs
      injection h1 with h3
      exact ⟨h2.symm, Or.inl h3.symm⟩
    · unfold Channel.try_send at hs
      rw [hsh] at hs
      simp at hs

theorem C8_try_send_error_witness :
    c4closed = c4closed ∧
    ((TrySendError.Disconnected 9 : TrySendError Nat) = .Full 9 ∨
      (TrySendError.Disconnected 9 : TrySendError Nat) = .Disconnected 9) :=
  C8_try_send_error Nat c4closed 9 (.Disconnected 9) c4closed (by decide)

/-- C9: the select handle's `state` reports the opposite end's
counter — `Receiver::state` is the tail stamp, `Sender::state` the
head stamp; consequently a committed receive changes the sender-side
state and leaves the receiver-side state untouched, and dually for a
committed send. -/
theorem C9_select_state :
    (∀ (α : Type) (ch : Channel α),
      Receiver.state ch = ch.tail ∧ Sender.state ch = ch.head) ∧
    (∀ (α : Type) [Inhabited α] (ch : Channel α) (h t : Nat) (q : List α),
      Inv ch h t q →
      (∀ (x : α) (ch' : Channel α), ch.try_recv = some (.ok x, ch') →
        Sender.state ch' ≠ Sender.state ch ∧
        Receiver.state ch' = Receiver.state ch) ∧
      (∀ (m : α) (ch' : Channel α), ch.try_send m = some (.ok (), ch') →
        Receiver.state ch' ≠ Receiver.state ch ∧
        Sender.state ch' = Sender.state ch)) := by
  constructor
  · intro α ch
    exact ⟨rfl, rfl⟩
  · intro α _ ch h t q inv
    have g := inv.geom
    have hht := inv.hle
    have htt := inv.tle
    constructor
    · intro x ch' hr
      rcases Nat.lt_or_ge h t with hlt | hge
      · have hspec := try_recv_spec inv hlt
        have hch' := (some_pair_eq (hspec.1.symm.trans hr)).2
        rw [← hch']
        constructor
        · show stampF ch.cap ch.one_lap (2 ^ ch.w) (h + 1) ≠ ch.head
          rw [inv.head_eq]
          exact g.stampF_succ_ne h
        · rfl
      · have he : h = t := by omega
        by_cases hc : ch.is_closed = true
        · rw [try_recv_empty_closed_res inv he hc] at hr
          simp at hr
        · have hc' : ch.is_closed = false := by simpa using hc
          rw [try_recv_empty_open_res inv he hc'] at hr
          simp at hr
    · intro m ch' hs
      by_cases hc : ch.is_closed = true
      · rw [try_send_closed ch hc m] at hs
        simp at hs
      · have hc' : ch.is_closed = false := by simpa using hc
        rcases Nat.lt_or_ge t (h + ch.cap) with hnf | hge
        · have hspec := try_send_spec inv hc' hnf m
          have hch' := (some_pair_eq (hspec.1.symm.trans hs)).2
          rw [← hch']
          constructor
          · show stampE ch.cap ch.one_lap (2 ^ ch.w) (t + 1) ≠ ch.tail
            rw [inv.tail_eq]
            exact g.stampE_succ_ne t
          · rfl
        · have hf : t = h + ch.cap := by omega
          rw [try_send_full_res inv hc' hf m] at hs
          simp at hs

theorem C9_select_state_witness :
    (Receiver.state sc1 = sc1.tail ∧ Sender.state sc1 = sc1.head) ∧
    (Sender.state c1c ≠ Sender.state c1b ∧
      Receiver.state c1c = Receiver.state c1b) :=
  ⟨C9_select_state.1 Nat sc1,
   (C9_select_state.2 Nat c1b 0 2 [1, 2] inv_c1b).1 1 c1c (by decide)⟩

theorem with_capacity_fields {α : Type} [Inhabited α] {w cap : Nat} {ch : Channel α}
    (hw : with_capacity α w cap = some ch) : ch.cap = cap ∧ ch.is_closed = false := by
  unfold with_capacity at hw
  split_ifs at hw
  injection hw with hch
  subst hch
  exact ⟨rfl, rfl⟩

/-- C10: a freshly constructed channel is empty, not full, open, has
`len() = 0`, and `capacity()` is `Some n`, never `None`. -/
theorem C10_fresh :
    ∀ (α : Type) [Inhabited α] (w n : Nat) (ch : Channel α),
      with_capacity α w n = some ch →
      ch.len = 0 ∧ ch.is_empty = true ∧ ch.is_full = false ∧
      ch.is_closed = false ∧ ch.capacity = some n ∧ ch.capacity ≠ none := by
  intro α _ w n ch hw
  have inv := init_inv hw
  obtain ⟨hcap, hclosed⟩ := with_capacity_fields hw
  refine ⟨by simpa using len_eq inv, (is_empty_iff inv).mpr rfl, ?_, hclosed, ?_, ?_⟩
  · have h1 : ¬(ch.is_full = true) := by
      rw [is_full_iff inv]
      have := inv.cap_pos
      omega
    simpa using h1
  · unfold Channel.capacity
    rw [hcap]
  · unfold Channel.capacity
    simp

theorem C10_fresh_witness :
    sc2.len = 0 ∧ sc2.is_empty = true ∧ sc2.is_full = false ∧
    sc2.is_closed = false ∧ sc2.capacity = some 4 ∧ sc2.capacity ≠ none :=
  C10_fresh Nat 8 4 sc2 (by decide)

end Crossbeam
